import Mathlib

/-!
Verification of the LSTV uncertainty-detection core: a shallow embedding of
the risk classifier, leakage filter, candidate ranker and metric-source
selection from `src/inference.py` and `src/generate_report.py`, together
with the epsilon-guarded entropy calculations of `UncertaintyCalculator`.
-/

/-- Risk labels assigned by `generate_report` (strings `Low Risk`,
`Moderate Risk`, `High Risk` in the source). -/
inductive RiskLevel
  | low
  | moderate
  | high
  deriving DecidableEq

/-- Threshold constant `HIGH_RISK_CONF = 0.97` from `generate_report.py`. -/
def HIGH_RISK_CONF : ℚ := 97 / 100

/-- Threshold constant `MODERATE_RISK_CONF = 0.985` from `generate_report.py`. -/
def MODERATE_RISK_CONF : ℚ := 985 / 1000

/-- Threshold constant `HIGH_RISK_ENTROPY = 5.2` from `generate_report.py`. -/
def HIGH_RISK_ENTROPY : ℚ := 52 / 10

/-- The risk classification of `generate_report.py` (lines 688-701):
rows start at `Low Risk`; the high-risk mask
`l5_confidence < HIGH_RISK_CONF or l5_entropy > HIGH_RISK_ENTROPY`
overwrites to `High Risk`; the moderate mask
`HIGH_RISK_CONF <= l5_confidence < MODERATE_RISK_CONF` intersected with the
complement of the high mask overwrites to `Moderate Risk`.  Thresholds are
taken as parameters so one definition covers any threshold configuration;
the source's constants are the defaults below. -/
def classifyRisk (highConf modConf highEnt conf ent : ℚ) : RiskLevel :=
  if conf < highConf ∨ highEnt < ent then RiskLevel.high
  else if highConf ≤ conf ∧ conf < modConf then RiskLevel.moderate
  else RiskLevel.low

/-- The classifier with the constants hard-coded in `generate_report.py`. -/
def classifyRiskDefault (conf ent : ℚ) : RiskLevel :=
  classifyRisk HIGH_RISK_CONF MODERATE_RISK_CONF HIGH_RISK_ENTROPY conf ent

/-- Which code path produced the uncertainty metrics appended to the
results store in `run_inference`. -/
inductive MetricsSource
  | mockGenerator
  | uncertaintyCalculator
  deriving DecidableEq

/-- Lines 336-344 of `inference.py`: when the model loaded, the branch
still assigns `uncertainty_metrics = generate_mock_uncertainty()`; when the
model is `None`, the else branch does the same. -/
def metricsSourceForStudy (modelLoaded : Bool) : MetricsSource :=
  if modelLoaded then MetricsSource.mockGenerator else MetricsSource.mockGenerator

/-- Line 257 of `inference.py`:
`studies = [s for s in studies if str(s) in valid_ids]`. -/
def leakageFilter (studies validIds : List ℕ) : List ℕ :=
  studies.filter (fun s => s ∈ validIds)

/-- Outcome of the validation-id handling at the start of `run_inference`. -/
inductive GuardOutcome
  | fatalError
  | filtered (studies : List ℕ)
  | unfiltered (studies : List ℕ)
  deriving DecidableEq

/-- Lines 224-235 and 255-262 of `inference.py`: when the validation-id
file loads, the study pool is filtered by membership; when it is missing,
the code logs a warning and proceeds on the whole pool.  No error path
exists. -/
def applyLeakageGuard (validIds : Option (List ℕ)) (studies : List ℕ) : GuardOutcome :=
  match validIds with
  | some ids => GuardOutcome.filtered (leakageFilter studies ids)
  | none => GuardOutcome.unfiltered studies

/-- One row of the results CSV as consumed by the ranking step of
`generate_report` (only the columns the ranker reads). -/
structure StudyRow where
  study_id : ℕ
  l5s1_conf : ℚ
  deriving DecidableEq

/-- The sort key of `df.sort_values('l5_s1_confidence')`: ascending
L5-S1 confidence, nothing else. -/
def confLE (a b : StudyRow) : Prop := a.l5s1_conf ≤ b.l5s1_conf

instance : DecidableRel confLE :=
  fun a b => inferInstanceAs (Decidable (a.l5s1_conf ≤ b.l5s1_conf))

instance : IsTotal StudyRow confLE := ⟨fun a b => le_total a.l5s1_conf b.l5s1_conf⟩

instance : IsTrans StudyRow confLE := ⟨fun _ _ _ h h' => le_trans h h'⟩

/-- Line 735 of `generate_report.py`: `df.sort_values('l5_s1_confidence')`,
modelled as a stable comparison sort on the confidence key alone (rows with
equal keys keep their input order; no secondary key is used). -/
def rankCandidates (rows : List StudyRow) : List StudyRow :=
  List.insertionSort confLE rows

/-- Line 735 of `generate_report.py`: `.head(20)` after the sort, with the
count as a parameter. -/
def topCandidates (n : ℕ) (rows : List StudyRow) : List StudyRow :=
  (rankCandidates rows).take n

/-- C1: for every confidence in `[0,1]`, entropy `≥ 0` and thresholds, the
classifier is total with values characterised exactly by the rule order:
High when `conf < highConf` or `ent > highEnt`; else Moderate when
`highConf ≤ conf < modConf`; else Low. -/
theorem classifyRisk_total_rule (highConf modConf highEnt conf ent : ℚ)
    (h0 : 0 ≤ conf) (h1 : conf ≤ 1) (h2 : 0 ≤ ent) :
    (classifyRisk highConf modConf highEnt conf ent = RiskLevel.high ↔
      (conf < highConf ∨ highEnt < ent)) ∧
    (classifyRisk highConf modConf highEnt conf ent = RiskLevel.moderate ↔
      (¬(conf < highConf ∨ highEnt < ent) ∧ highConf ≤ conf ∧ conf < modConf)) ∧
    (classifyRisk highConf modConf highEnt conf ent = RiskLevel.low ↔
      (¬(conf < highConf ∨ highEnt < ent) ∧ ¬(highConf ≤ conf ∧ conf < modConf))) := by
  unfold classifyRisk
  split_ifs with hA hB <;> simp_all

/-- Witness for C1 at the source's default thresholds with
confidence `1/2`, entropy `1`: the classifier returns High. -/
theorem classifyRisk_total_rule_witness :
    (classifyRisk HIGH_RISK_CONF MODERATE_RISK_CONF HIGH_RISK_ENTROPY (1/2) 1 = RiskLevel.high ↔
      ((1:ℚ)/2 < HIGH_RISK_CONF ∨ HIGH_RISK_ENTROPY < 1)) ∧
    (classifyRisk HIGH_RISK_CONF MODERATE_RISK_CONF HIGH_RISK_ENTROPY (1/2) 1 = RiskLevel.moderate ↔
      (¬((1:ℚ)/2 < HIGH_RISK_CONF ∨ HIGH_RISK_ENTROPY < 1) ∧
        HIGH_RISK_CONF ≤ (1:ℚ)/2 ∧ (1:ℚ)/2 < MODERATE_RISK_CONF)) ∧
    (classifyRisk HIGH_RISK_CONF MODERATE_RISK_CONF HIGH_RISK_ENTROPY (1/2) 1 = RiskLevel.low ↔
      (¬((1:ℚ)/2 < HIGH_RISK_CONF ∨ HIGH_RISK_ENTROPY < 1) ∧
        ¬(HIGH_RISK_CONF ≤ (1:ℚ)/2 ∧ (1:ℚ)/2 < MODERATE_RISK_CONF))) :=
  classifyRisk_total_rule HIGH_RISK_CONF MODERATE_RISK_CONF HIGH_RISK_ENTROPY
    (1/2) 1 (by norm_num) (by norm_num) (by norm_num)

/-- C2: on the path that appends to the results store, both the
model-loaded branch and the model-missing branch take their metrics from
`generate_mock_uncertainty`; `UncertaintyCalculator` is never the source. -/
theorem metricsSource_always_mock (modelLoaded : Bool) :
    metricsSourceForStudy modelLoaded = MetricsSource.mockGenerator ∧
    metricsSourceForStudy modelLoaded ≠ MetricsSource.uncertaintyCalculator := by
  cases modelLoaded <;> simp [metricsSourceForStudy]

/-- C3 counterexample: with the validation-id set missing, `run_inference`
proceeds on the unfiltered study pool `[1, 2, 3]`; it does not fail with
any configuration error. -/
theorem leakageGuard_missing_ids_proceeds :
    applyLeakageGuard none [1, 2, 3] = GuardOutcome.unfiltered [1, 2, 3] ∧
    applyLeakageGuard none [1, 2, 3] ≠ GuardOutcome.fatalError := by
  constructor
  · rfl
  · decide

/-- C3 amended: a missing validation-id set makes the run proceed,
unfiltered, on every study; an empty validation-id set makes it proceed on
the empty filtered pool; no input produces a fatal error. -/
theorem leakageGuard_never_fatal (studies : List ℕ) :
    applyLeakageGuard none studies = GuardOutcome.unfiltered studies ∧
    applyLeakageGuard (some []) studies = GuardOutcome.filtered [] ∧
    ∀ validIds, applyLeakageGuard validIds studies ≠ GuardOutcome.fatalError := by
  refine ⟨rfl, ?_, ?_⟩
  · simp [applyLeakageGuard, leakageFilter]
  · intro validIds
    cases validIds <;> simp [applyLeakageGuard]

/-- C9: the leakage filter keeps exactly the studies whose id belongs to
the validation set, as a sublist of the input (relative order preserved). -/
theorem leakageFilter_membership_sublist (studies validIds : List ℕ) :
    (∀ x, x ∈ leakageFilter studies validIds ↔ x ∈ studies ∧ x ∈ validIds) ∧
    (leakageFilter studies validIds).Sublist studies := by
  constructor
  · intro x
    simp [leakageFilter, List.mem_filter]
  · exact List.filter_sublist studies

noncomputable section

/-- The epsilon guard `1e-9` used throughout `UncertaintyCalculator`. -/
def eps : ℝ := 1e-9

theorem eps_val : eps = 1 / 1000000000 := by norm_num [eps]

theorem eps_pos : (0:ℝ) < eps := by norm_num [eps]

/-- `np.sum(heatmap)` for an `H × W` heatmap given as a function. -/
def heatSum (H W : ℕ) (f : ℕ → ℕ → ℝ) : ℝ :=
  ∑ r ∈ Finset.range H, ∑ c ∈ Finset.range W, f r c

/-- `np.max(heatmap)`: the peak confidence of `calculate_uncertainty`
(line 60 of `inference.py`).  `np.max` is undefined on an empty array; the
embedding returns `0` there and every claim assumes positive dimensions. -/
def peakConfidence (H W : ℕ) (f : ℕ → ℕ → ℝ) : ℝ :=
  if h : (Finset.range H ×ˢ Finset.range W).Nonempty then
    (Finset.range H ×ˢ Finset.range W).sup' h (fun p => f p.1 p.2)
  else 0

/-- The entropy of `calculate_uncertainty` (lines 62-67 of `inference.py`):
normalise the flattened heatmap by `sum + 1e-9`, then
`-sum(p * log(p + 1e-9))`. -/
def calcEntropy (H W : ℕ) (f : ℕ → ℕ → ℝ) : ℝ :=
  -(∑ r ∈ Finset.range H, ∑ c ∈ Finset.range W,
      f r c / (heatSum H W f + eps) *
        Real.log (f r c / (heatSum H W f + eps) + eps))

/-- One spatial bin of `calculate_spatial_entropy` (lines 90-94):
`np.sum(heatmap[i*bh:(i+1)*bh, j*bw:(j+1)*bw])` with
`bh = H // num_bins`, `bw = W // num_bins`. -/
def binSum (H W numBins : ℕ) (f : ℕ → ℕ → ℝ) (i j : ℕ) : ℝ :=
  ∑ r ∈ Finset.Ico (i * (H / numBins)) ((i + 1) * (H / numBins)),
    ∑ c ∈ Finset.Ico (j * (W / numBins)) ((j + 1) * (W / numBins)), f r c

/-- `np.sum(binned_probs)` over the `num_bins × num_bins` grid. -/
def binTotal (H W numBins : ℕ) (f : ℕ → ℕ → ℝ) : ℝ :=
  ∑ i ∈ Finset.range numBins, ∑ j ∈ Finset.range numBins, binSum H W numBins f i j

/-- The spatial entropy of `calculate_spatial_entropy` (lines 83-101):
normalise the grid of bin masses by `sum + 1e-9`, then
`-sum(q * log(q + 1e-9))`. -/
def calcSpatialEntropy (H W numBins : ℕ) (f : ℕ → ℕ → ℝ) : ℝ :=
  -(∑ i ∈ Finset.range numBins, ∑ j ∈ Finset.range numBins,
      binSum H W numBins f i j / (binTotal H W numBins f + eps) *
        Real.log (binSum H W numBins f i j / (binTotal H W numBins f + eps) + eps))

end

theorem entropy_term_le (p : ℝ) (h0 : 0 ≤ p) (h1 : p ≤ 1) :
    p * Real.log (p + eps) ≤ eps := by
  rcases le_or_lt (p + eps) 1 with h | h
  · have hlog : Real.log (p + eps) ≤ 0 :=
      Real.log_nonpos (by nlinarith [eps_pos]) h
    nlinarith [eps_pos]
  · have hpos : (0:ℝ) < p + eps := by nlinarith [eps_pos]
    have hlog : Real.log (p + eps) ≤ p + eps - 1 := Real.log_le_sub_one_of_pos hpos
    have hnn : 0 ≤ Real.log (p + eps) := Real.log_nonneg h.le
    nlinarith [mul_nonneg (sub_nonneg.mpr h1) hnn]

theorem frac_nonneg (x S : ℝ) (hx : 0 ≤ x) (hxS : x ≤ S) : 0 ≤ x / (S + eps) := by
  have hS : 0 ≤ S := le_trans hx hxS
  have hD : 0 < S + eps := by nlinarith [eps_pos]
  exact div_nonneg hx hD.le

theorem frac_le_one (x S : ℝ) (hx : 0 ≤ x) (hxS : x ≤ S) : x / (S + eps) ≤ 1 := by
  have hS : 0 ≤ S := le_trans hx hxS
  have hD : 0 < S + eps := by nlinarith [eps_pos]
  exact (div_le_one hD).mpr (by nlinarith [eps_pos])

theorem entry_le_heatSum (H W : ℕ) (f : ℕ → ℕ → ℝ) (hf : ∀ r c, 0 ≤ f r c)
    (r c : ℕ) (hr : r ∈ Finset.range H) (hc : c ∈ Finset.range W) :
    f r c ≤ heatSum H W f := by
  have h1 : f r c ≤ ∑ j ∈ Finset.range W, f r j :=
    Finset.single_le_sum (fun j _ => hf r j) hc
  have h2 : (∑ j ∈ Finset.range W, f r j) ≤ heatSum H W f :=
    Finset.single_le_sum (fun i _ => Finset.sum_nonneg fun j _ => hf i j) hr
  exact le_trans h1 h2

theorem binSum_nonneg (H W numBins : ℕ) (f : ℕ → ℕ → ℝ) (hf : ∀ r c, 0 ≤ f r c)
    (i j : ℕ) : 0 ≤ binSum H W numBins f i j :=
  Finset.sum_nonneg fun _ _ => Finset.sum_nonneg fun _ _ => hf _ _

theorem binSum_le_binTotal (H W numBins : ℕ) (f : ℕ → ℕ → ℝ)
    (hf : ∀ r c, 0 ≤ f r c) (i j : ℕ)
    (hi : i ∈ Finset.range numBins) (hj : j ∈ Finset.range numBins) :
    binSum H W numBins f i j ≤ binTotal H W numBins f := by
  have h1 : binSum H W numBins f i j ≤ ∑ j' ∈ Finset.range numBins, binSum H W numBins f i j' :=
    Finset.single_le_sum (fun j' _ => binSum_nonneg H W numBins f hf i j') hj
  have h2 : (∑ j' ∈ Finset.range numBins, binSum H W numBins f i j') ≤ binTotal H W numBins f :=
    Finset.single_le_sum
      (fun i' _ => Finset.sum_nonneg fun j' _ => binSum_nonneg H W numBins f hf i' j') hi
  exact le_trans h1 h2

theorem sum_range_le_of_le (n : ℕ) (g : ℕ → ℝ) (b : ℝ)
    (h : ∀ i ∈ Finset.range n, g i ≤ b) :
    (∑ i ∈ Finset.range n, g i) ≤ (n : ℝ) * b := by
  calc (∑ i ∈ Finset.range n, g i) ≤ ∑ _i ∈ Finset.range n, b := Finset.sum_le_sum h
  _ = (n : ℝ) * b := by simp [Finset.sum_const, Finset.card_range, nsmul_eq_mul]

/-- C5 counterexample: a 2×2 heatmap concentrated on a single pixel of
value 1 has strictly negative epsilon-guarded entropy, because the epsilon
added inside the logarithm pushes the normalised peak probability
`1/(1+eps)` above 1. -/
theorem calcEntropy_neg_on_single_pixel :
    calcEntropy 2 2 (fun r c => if r = 0 ∧ c = 0 then 1 else 0) < 0 := by
  have hS : heatSum 2 2 (fun r c => if r = 0 ∧ c = 0 then (1:ℝ) else 0) = 1 := by
    simp [heatSum, Finset.sum_range_succ]
  have h1 : (1:ℝ) < (1 + eps)⁻¹ + eps := by rw [eps_val]; norm_num
  have h2 : 0 < Real.log ((1 + eps)⁻¹ + eps) := Real.log_pos h1
  have h3 : (0:ℝ) < (1 + eps)⁻¹ := by
    have := eps_pos
    positivity
  have h4 : 0 < (1 + eps)⁻¹ * Real.log ((1 + eps)⁻¹ + eps) := mul_pos h3 h2
  simp only [calcEntropy, hS, Finset.sum_range_succ, Finset.sum_range_zero]
  norm_num
  nlinarith [h4]

/-- C5 amended: with entries in `[0,1]` and positive dimensions, the peak
confidence lies in `[0,1]` and the epsilon-guarded entropies are bounded
below by `-(number of terms) * eps` — they can dip below zero only by that
epsilon artifact. -/
theorem uncertainty_metric_bounds (H W : ℕ) (f : ℕ → ℕ → ℝ)
    (hH : 0 < H) (hW : 0 < W) (hf : ∀ r c, 0 ≤ f r c ∧ f r c ≤ 1) :
    0 ≤ peakConfidence H W f ∧ peakConfidence H W f ≤ 1 ∧
    -(((H : ℝ) * W) * eps) ≤ calcEntropy H W f ∧
    -(((10 : ℝ) * 10) * eps) ≤ calcSpatialEntropy H W 10 f := by
  have hf0 : ∀ r c, 0 ≤ f r c := fun r c => (hf r c).1
  have hne : (Finset.range H ×ˢ Finset.range W).Nonempty :=
    Finset.Nonempty.product (Finset.nonempty_range_iff.mpr hH.ne')
      (Finset.nonempty_range_iff.mpr hW.ne')
  refine ⟨?_, ?_, ?_, ?_⟩
  · rw [peakConfidence, dif_pos hne]
    obtain ⟨a, ha⟩ := hne
    exact le_trans (hf a.1 a.2).1 (Finset.le_sup' (fun p => f p.1 p.2) ha)
  · rw [peakConfidence, dif_pos hne]
    exact Finset.sup'_le hne _ (fun b _ => (hf b.1 b.2).2)
  · have hsum : (∑ r ∈ Finset.range H, ∑ c ∈ Finset.range W,
        f r c / (heatSum H W f + eps) *
          Real.log (f r c / (heatSum H W f + eps) + eps)) ≤ (H : ℝ) * ((W : ℝ) * eps) := by
      apply sum_range_le_of_le
      intro r hr
      apply sum_range_le_of_le
      intro c hc
      have hle := entry_le_heatSum H W f hf0 r c hr hc
      exact entropy_term_le _ (frac_nonneg _ _ (hf0 r c) hle) (frac_le_one _ _ (hf0 r c) hle)
    have : -((H : ℝ) * ((W : ℝ) * eps)) ≤ calcEntropy H W f := neg_le_neg hsum
    calc -(((H : ℝ) * W) * eps) = -((H : ℝ) * ((W : ℝ) * eps)) := by ring
    _ ≤ calcEntropy H W f := this
  · have hsum : (∑ i ∈ Finset.range 10, ∑ j ∈ Finset.range 10,
        binSum H W 10 f i j / (binTotal H W 10 f + eps) *
          Real.log (binSum H W 10 f i j / (binTotal H W 10 f + eps) + eps)) ≤
        (10 : ℝ) * ((10 : ℝ) * eps) := by
      apply sum_range_le_of_le
      intro i hi
      apply sum_range_le_of_le
      intro j hj
      have hle := binSum_le_binTotal H W 10 f hf0 i j hi hj
      have hnn := binSum_nonneg H W 10 f hf0 i j
      exact entropy_term_le _ (frac_nonneg _ _ hnn hle) (frac_le_one _ _ hnn hle)
    have : -((10 : ℝ) * ((10 : ℝ) * eps)) ≤ calcSpatialEntropy H W 10 f := neg_le_neg hsum
    calc -(((10 : ℝ) * 10) * eps) = -((10 : ℝ) * ((10 : ℝ) * eps)) := by ring
    _ ≤ calcSpatialEntropy H W 10 f := this

/-- Witness for the amended C5 at a concrete 1×2 heatmap. -/
theorem uncertainty_metric_bounds_witness :
    0 ≤ peakConfidence 1 2 (fun _ c => if c = 0 then 1/2 else 1/4) ∧
    peakConfidence 1 2 (fun _ c => if c = 0 then 1/2 else 1/4) ≤ 1 ∧
    -((((1 : ℕ) : ℝ) * ((2 : ℕ) : ℝ)) * eps) ≤
      calcEntropy 1 2 (fun _ c => if c = 0 then 1/2 else 1/4) ∧
    -(((10 : ℝ) * 10) * eps) ≤
      calcSpatialEntropy 1 2 10 (fun _ c => if c = 0 then 1/2 else 1/4) :=
  uncertainty_metric_bounds 1 2 _ (by norm_num) (by norm_num)
    (fun r c => by by_cases h : c = 0 <;> simp [h] <;> norm_num)

theorem one_lt_log_four : 1 < Real.log 4 := by
  rw [Real.lt_log_iff_exp_lt (by norm_num : (0:ℝ) < 4)]
  calc Real.exp 1 < 2.7182818286 := Real.exp_one_lt_d9
  _ < 4 := by norm_num

/-- C6 counterexample: for the all-zero 2×2 heatmap the epsilon-guarded
entropy is exactly 0 — not near the uniform-distribution entropy
`log 4 > 1` claimed by the spec (every normalised probability is `0`, so
every summand vanishes). -/
theorem calcEntropy_allzero_counterexample :
    calcEntropy 2 2 (fun _ _ => 0) = 0 ∧ 1 < Real.log ((2 : ℝ) * 2) := by
  constructor
  · simp [calcEntropy, heatSum]
  · norm_num [one_lt_log_four]

/-- C6 amended: an all-zero heatmap never yields NaN or an exception in
the embedding — both epsilon-guarded entropies are exactly 0 (not a value
near `log` of the pixel count). -/
theorem calcEntropy_allzero_eq_zero (H W : ℕ) :
    calcEntropy H W (fun _ _ => 0) = 0 ∧
    calcSpatialEntropy H W 10 (fun _ _ => 0) = 0 := by
  constructor
  · simp [calcEntropy, heatSum]
  · simp [calcSpatialEntropy, binSum, binTotal]

/-- C10: when the height or width is smaller than the grid size, the
floor-divided bin size is 0, every grid cell is an empty slice with zero
mass, and the spatial entropy is exactly 0 (no exception). -/
theorem calcSpatialEntropy_small_grid (H W numBins : ℕ) (f : ℕ → ℕ → ℝ)
    (h : H < numBins ∨ W < numBins) :
    calcSpatialEntropy H W numBins f = 0 := by
  have hz : ∀ i j, binSum H W numBins f i j = 0 := by
    intro i j
    rcases h with h | h
    · have hd : H / numBins = 0 := Nat.div_eq_of_lt h
      simp [binSum, hd]
    · have hd : W / numBins = 0 := Nat.div_eq_of_lt h
      simp [binSum, hd]
  simp [calcSpatialEntropy, binTotal, hz]

/-- Witness for C10 at a concrete 5×20 heatmap with grid size 10. -/
theorem calcSpatialEntropy_small_grid_witness :
    calcSpatialEntropy 5 20 10 (fun r c => (r : ℝ) + c) = 0 :=
  calcSpatialEntropy_small_grid 5 20 10 _ (Or.inl (by norm_num))

/-- C8: spatial entropy reads only the top-left
`(N*(H/N)) × (N*(W/N))` submatrix: heatmaps agreeing there give equal
spatial entropies, and the value equals the spatial entropy of the
cropped submatrix itself. -/
theorem calcSpatialEntropy_crop (H W N : ℕ) (f g : ℕ → ℕ → ℝ) (hN : 0 < N)
    (hH : N ≤ H) (hW : N ≤ W)
    (hagree : ∀ r c, r < N * (H / N) → c < N * (W / N) → f r c = g r c) :
    calcSpatialEntropy H W N f = calcSpatialEntropy H W N g ∧
    calcSpatialEntropy H W N f = calcSpatialEntropy (N * (H / N)) (N * (W / N)) N f := by
  constructor
  · have hbin : ∀ i ∈ Finset.range N, ∀ j ∈ Finset.range N,
        binSum H W N f i j = binSum H W N g i j := by
      intro i hi j hj
      unfold binSum
      refine Finset.sum_congr rfl fun r hr => Finset.sum_congr rfl fun c hc => ?_
      apply hagree
      · calc r < (i + 1) * (H / N) := (Finset.mem_Ico.mp hr).2
        _ ≤ N * (H / N) := Nat.mul_le_mul_right _ (Finset.mem_range.mp hi)
      · calc c < (j + 1) * (W / N) := (Finset.mem_Ico.mp hc).2
        _ ≤ N * (W / N) := Nat.mul_le_mul_right _ (Finset.mem_range.mp hj)
    have hT : binTotal H W N f = binTotal H W N g :=
      Finset.sum_congr rfl fun i hi => Finset.sum_congr rfl fun j hj => hbin i hi j hj
    unfold calcSpatialEntropy
    rw [hT]
    congr 1
    exact Finset.sum_congr rfl fun i hi =>
      Finset.sum_congr rfl fun j hj => by rw [hbin i hi j hj]
  · have h2 : N * (H / N) / N = H / N := Nat.mul_div_cancel_left _ hN
    have h3 : N * (W / N) / N = W / N := Nat.mul_div_cancel_left _ hN
    simp only [calcSpatialEntropy, binTotal, binSum, h2, h3]

/-- Witness for C8: a 12×12 heatmap with grid size 10 ignores the two
trailing rows and columns. -/
theorem calcSpatialEntropy_crop_witness :
    calcSpatialEntropy 12 12 10 (fun _ _ => (1:ℝ)) =
      calcSpatialEntropy 12 12 10 (fun r c => if r < 10 ∧ c < 10 then 1 else 7) ∧
    calcSpatialEntropy 12 12 10 (fun _ _ => (1:ℝ)) =
      calcSpatialEntropy (10 * (12 / 10)) (10 * (12 / 10)) 10 (fun _ _ => (1:ℝ)) :=
  calcSpatialEntropy_crop 12 12 10 _ _ (by norm_num) (by norm_num) (by norm_num)
    (fun r c hr hc => by
      norm_num at hr hc
      simp [hr, hc])

/-- The strict version of the sort key, used to show that distinct
confidences pin the sorted order down uniquely. -/
def confLT (a b : StudyRow) : Prop := a.l5s1_conf < b.l5s1_conf

instance : IsAntisymm StudyRow confLT := ⟨fun _ _ h h' => absurd h' (lt_asymm h)⟩

/-- C4 counterexample: two rows tied at confidence `1/2` with study ids
`2` then `1` stay in input order after ranking — the claimed `study_id`
ascending tie-break does not happen, and ranking the transposed input
gives a different output, so permutation stability fails on ties. -/
theorem rankCandidates_tie_counterexample :
    rankCandidates [⟨2, 1/2⟩, ⟨1, 1/2⟩] = [⟨2, 1/2⟩, ⟨1, 1/2⟩] ∧
    rankCandidates [⟨1, 1/2⟩, ⟨2, 1/2⟩] = [⟨1, 1/2⟩, ⟨2, 1/2⟩] ∧
    rankCandidates [⟨2, 1/2⟩, ⟨1, 1/2⟩] ≠ rankCandidates [⟨1, 1/2⟩, ⟨2, 1/2⟩] := by
  refine ⟨?_, ?_, ?_⟩ <;>
    norm_num [rankCandidates, List.insertionSort, List.orderedInsert, confLE]

/-- C4 amended: the ranker sorts by ascending L5-S1 confidence only (no
`study_id` tie-break); the output is a sorted permutation of the input,
the top-N view is its prefix, and re-ranking a permutation of the input
gives the identical output whenever the confidences are pairwise
distinct. -/
theorem rankCandidates_deterministic (l l' : List StudyRow) (n : ℕ)
    (hperm : l.Perm l')
    (hdist : l.Pairwise (fun a b => a.l5s1_conf ≠ b.l5s1_conf)) :
    (rankCandidates l).Sorted confLE ∧
    (rankCandidates l).Perm l ∧
    rankCandidates l = rankCandidates l' ∧
    topCandidates n l = (rankCandidates l).take n := by
  have hs1 : (rankCandidates l).Sorted confLE := List.sorted_insertionSort confLE l
  have hp1 : (rankCandidates l).Perm l := List.perm_insertionSort confLE l
  have hs2 : (rankCandidates l').Sorted confLE := List.sorted_insertionSort confLE l'
  have hp2 : (rankCandidates l').Perm l' := List.perm_insertionSort confLE l'
  have hd1 : (rankCandidates l).Pairwise (fun a b => a.l5s1_conf ≠ b.l5s1_conf) :=
    (hp1.pairwise_iff fun h => h.symm).mpr hdist
  have hd2 : (rankCandidates l').Pairwise (fun a b => a.l5s1_conf ≠ b.l5s1_conf) :=
    (hp2.pairwise_iff fun h => h.symm).mpr ((hperm.pairwise_iff fun h => h.symm).mp hdist)
  have hlt1 : (rankCandidates l).Sorted confLT :=
    (hs1.and hd1).imp fun h => lt_of_le_of_ne h.1 h.2
  have hlt2 : (rankCandidates l').Sorted confLT :=
    (hs2.and hd2).imp fun h => lt_of_le_of_ne h.1 h.2
  have hperm12 : (rankCandidates l).Perm (rankCandidates l') :=
    hp1.trans (hperm.trans hp2.symm)
  exact ⟨hs1, hp1, List.eq_of_perm_of_sorted hperm12 hlt1 hlt2, rfl⟩

/-- Witness for the amended C4 on two rows with distinct confidences. -/
theorem rankCandidates_deterministic_witness :
    (rankCandidates [⟨1, 1/4⟩, ⟨2, 3/4⟩]).Sorted confLE ∧
    (rankCandidates [⟨1, 1/4⟩, ⟨2, 3/4⟩]).Perm [⟨1, 1/4⟩, ⟨2, 3/4⟩] ∧
    rankCandidates [⟨1, 1/4⟩, ⟨2, 3/4⟩] = rankCandidates [⟨2, 3/4⟩, ⟨1, 1/4⟩] ∧
    topCandidates 1 [⟨1, 1/4⟩, ⟨2, 3/4⟩] = (rankCandidates [⟨1, 1/4⟩, ⟨2, 3/4⟩]).take 1 :=
  rankCandidates_deterministic [⟨1, 1/4⟩, ⟨2, 3/4⟩] [⟨2, 3/4⟩, ⟨1, 1/4⟩] 1
    (List.Perm.swap (⟨2, 3/4⟩ : StudyRow) (⟨1, 1/4⟩ : StudyRow) [])
    (by norm_num [List.pairwise_cons])

theorem log_1e9_lt : Real.log (1000000000:ℝ) < 21 := by
  have h : (1000000000:ℝ) < Real.exp 21 := by
    have h21 : Real.exp 21 = Real.exp 1 ^ 21 := by
      rw [← Real.exp_nat_mul]; norm_num
    rw [h21]
    calc (1000000000:ℝ) < 2.7182818283 ^ 21 := by norm_num
    _ ≤ Real.exp 1 ^ 21 := pow_le_pow_left (by norm_num) Real.exp_one_gt_d9.le 21
  exact (Real.log_lt_iff_lt_exp (by norm_num)).mpr h

theorem log_1e6_le : Real.log (1000000:ℝ) ≤ 14 := by
  have h : (1000000:ℝ) < Real.exp 14 := by
    have h14 : Real.exp 14 = Real.exp 1 ^ 14 := by
      rw [← Real.exp_nat_mul]; norm_num
    rw [h14]
    calc (1000000:ℝ) < 2.7182818283 ^ 14 := by norm_num
    _ ≤ Real.exp 1 ^ 14 := pow_le_pow_left (by norm_num) Real.exp_one_gt_d9.le 14
  exact ((Real.log_lt_iff_lt_exp (by norm_num)).mpr h).le

theorem entropy_term_neg_bound (p : ℝ) (h0 : 0 ≤ p) (h1 : p ≤ 1e-9) :
    -(p * Real.log (p + eps)) ≤ 21e-9 := by
  have he := eps_pos
  have hq : 0 < p + eps := by linarith
  have hlg : Real.log eps ≤ Real.log (p + eps) :=
    (Real.log_le_log_iff he hq).mpr (by linarith)
  have hle : -Real.log eps < 21 := by
    have hinv : Real.log eps = -Real.log 1000000000 := by
      rw [eps_val, one_div, Real.log_inv]
    rw [hinv, neg_neg]
    exact log_1e9_lt
  have hA : p * (-Real.log (p + eps)) ≤ p * (-Real.log eps) :=
    mul_le_mul_of_nonneg_left (by linarith) h0
  have hB : p * (-Real.log eps) ≤ p * 21 :=
    mul_le_mul_of_nonneg_left hle.le h0
  nlinarith [hA, hB, h1]

/-- Closed form of the epsilon-guarded entropy on a uniform heatmap. -/
theorem calcEntropy_const (H W : ℕ) (c : ℝ) :
    calcEntropy H W (fun _ _ => c) =
      -((H : ℝ) * W *
        (c / ((H : ℝ) * W * c + eps) * Real.log (c / ((H : ℝ) * W * c + eps) + eps))) := by
  have hS : heatSum H W (fun _ _ => c) = (H : ℝ) * W * c := by
    simp [heatSum, Finset.sum_const, Finset.card_range, nsmul_eq_mul]
    ring
  rw [calcEntropy, hS]
  simp [Finset.sum_const, Finset.card_range, nsmul_eq_mul]
  ring

/-- C7 counterexample: a uniform 2×2 heatmap with tiny entries `1e-18`
has epsilon-guarded entropy below `1/10`, far from the claimed
`log(num_pixels) = log 4 > 1` (the epsilon in the denominator swamps the
heatmap mass). -/
theorem calcEntropy_uniform_tiny_counterexample :
    calcEntropy 2 2 (fun _ _ => 1e-18) < 1/10 ∧ 1 < Real.log ((2:ℝ) * 2) := by
  constructor
  · rw [calcEntropy_const]
    push_cast
    have hD : (0:ℝ) < 2 * 2 * 1e-18 + eps := by
      have := eps_pos
      positivity
    have hp0 : (0:ℝ) ≤ 1e-18 / (2 * 2 * 1e-18 + eps) := by positivity
    have hp1 : (1e-18 : ℝ) / (2 * 2 * 1e-18 + eps) ≤ 1e-9 := by
      rw [div_le_iff hD, eps_val]
      norm_num
    have hb := entropy_term_neg_bound _ hp0 hp1
    nlinarith [hb]
  · norm_num [one_lt_log_four]

set_option maxHeartbeats 1000000 in
/-- The central estimate: the epsilon-guarded entropy of a uniform
distribution of `n` cells of mass `b ≥ 1` each is within `1/100` of
`log n` for `1 ≤ n ≤ 10^6`. -/
theorem uniform_entropy_est (n b : ℝ) (hn1 : 1 ≤ n) (hn6 : n ≤ 1000000) (hb : 1 ≤ b) :
    |(-(n * (b / (n * b + eps) * Real.log (b / (n * b + eps) + eps)))) - Real.log n|
      ≤ 1/100 := by
  have he : (0:ℝ) < eps := eps_pos
  have heval : eps = 1/1000000000 := eps_val
  have hb0 : (0:ℝ) < b := lt_of_lt_of_le one_pos hb
  have hn0 : (0:ℝ) < n := lt_of_lt_of_le one_pos hn1
  have hS1 : 1 ≤ n * b := by nlinarith
  have hD : 0 < n * b + eps := by linarith
  set p := b / (n * b + eps) with hp
  have hp0 : 0 < p := div_pos hb0 hD
  have hq0 : 0 < p + eps := by linarith
  have hp_le : p ≤ 1 / n := by
    rw [hp, div_le_div_iff hD hn0]
    nlinarith
  have hp_ge : 1 / (n + eps) ≤ p := by
    rw [hp, div_le_div_iff (by linarith) hD]
    nlinarith [mul_le_mul_of_nonneg_right hb he.le]
  have hnp_le : n * p ≤ 1 := by
    rw [hp, ← mul_div_assoc, div_le_one hD]
    linarith
  have hnp_ge : 1 - eps ≤ n * p := by
    rw [hp, ← mul_div_assoc, le_div_iff hD]
    nlinarith [mul_nonneg he.le (sub_nonneg.mpr hS1)]
  have hnp0 : 0 ≤ n * p := by positivity
  have hlogn_nn : 0 ≤ Real.log n := Real.log_nonneg hn1
  have hlog_up : Real.log (p + eps) ≤ n * eps - Real.log n := by
    have h1 : p + eps ≤ 1/n + eps := by linarith
    have h2 : Real.log (p + eps) ≤ Real.log (1/n + eps) :=
      (Real.log_le_log_iff hq0 (by positivity)).mpr h1
    have h3 : (1:ℝ)/n + eps = (1 + n * eps)/n := by field_simp; ring
    have h4 : Real.log ((1 + n * eps)/n) = Real.log (1 + n * eps) - Real.log n :=
      Real.log_div (by positivity) (ne_of_gt hn0)
    have h5 : Real.log (1 + n * eps) ≤ n * eps := by
      have h6 := Real.log_le_sub_one_of_pos (show (0:ℝ) < 1 + n * eps by positivity)
      linarith
    calc Real.log (p + eps) ≤ Real.log (1/n + eps) := h2
    _ = Real.log (1 + n * eps) - Real.log n := by rw [h3, h4]
    _ ≤ n * eps - Real.log n := by linarith
  have hlog_lo : -(Real.log n + eps) ≤ Real.log (p + eps) := by
    have h1 : 1/(n + eps) ≤ p + eps := by linarith
    have h2 : Real.log (1/(n + eps)) ≤ Real.log (p + eps) :=
      (Real.log_le_log_iff (by positivity) hq0).mpr h1
    have h3 : Real.log ((1:ℝ)/(n + eps)) = -Real.log (n + eps) := by
      rw [one_div, Real.log_inv]
    have h4 : Real.log (n + eps) ≤ Real.log n + eps := by
      have hx : Real.log ((n + eps)/n) ≤ (n + eps)/n - 1 :=
        Real.log_le_sub_one_of_pos (by positivity)
      have hy : Real.log ((n + eps)/n) = Real.log (n + eps) - Real.log n :=
        Real.log_div (by positivity) (ne_of_gt hn0)
      have hz : (n + eps)/n - 1 = eps/n := by field_simp
      have hw : eps/n ≤ eps := div_le_self he.le hn1
      rw [hy, hz] at hx
      linarith
    linarith [h2, h3.symm.trans_le h2, h4]
  have hne3 : n * eps ≤ 1/1000 := by
    calc n * eps ≤ 1000000 * eps := mul_le_mul_of_nonneg_right hn6 he.le
    _ ≤ 1/1000 := by rw [heval]; norm_num
  have hlogn_ub : Real.log n ≤ 14 := by
    calc Real.log n ≤ Real.log 1000000 := (Real.log_le_log_iff hn0 (by norm_num)).mpr hn6
    _ ≤ 14 := log_1e6_le
  have heps_logn : eps * Real.log n ≤ 1/1000000 := by
    have h1 : eps * Real.log n ≤ eps * 14 := mul_le_mul_of_nonneg_left hlogn_ub he.le
    rw [heval] at h1 ⊢
    nlinarith
  rw [abs_le]
  constructor
  · rcases le_or_lt (Real.log (p + eps)) 0 with hM | hM
    · have hA : (1 - eps) * (-Real.log (p + eps)) ≤ n * p * (-Real.log (p + eps)) :=
        mul_le_mul_of_nonneg_right hnp_ge (by linarith)
      have hB : (1 - eps) * (Real.log n - n * eps) ≤ (1 - eps) * (-Real.log (p + eps)) :=
        mul_le_mul_of_nonneg_left (by linarith [hlog_up]) (by rw [heval]; norm_num)
      nlinarith [hA, hB, hne3, heps_logn, hlogn_nn, he, mul_nonneg (mul_nonneg hn0.le he.le) he.le]
    · have hA : n * p * Real.log (p + eps) ≤ 1 * Real.log (p + eps) :=
        mul_le_mul_of_nonneg_right hnp_le hM.le
      have hB : Real.log (p + eps) ≤ n * eps - Real.log n := hlog_up
      nlinarith [hA, hB, hne3]
  · rcases le_or_lt 0 (Real.log (p + eps)) with hM | hM
    · have hA : 0 ≤ n * p * Real.log (p + eps) := mul_nonneg hnp0 hM
      nlinarith [hA, hlogn_nn]
    · nlinarith [hlog_lo, he, heval, hlogn_nn,
        mul_nonneg (sub_nonneg.mpr hnp_le) (neg_nonneg.mpr hM.le)]

/-- Every spatial bin of a uniform heatmap holds the same mass
`(H/N) * (W/N) * c`. -/
theorem binSum_const (H W N : ℕ) (c : ℝ) (i j : ℕ) :
    binSum H W N (fun _ _ => c) i j = ((H / N : ℕ) : ℝ) * ((W / N : ℕ) : ℝ) * c := by
  simp [binSum, Finset.sum_const, Nat.card_Ico, Nat.succ_mul, Nat.add_sub_cancel_left,
    nsmul_eq_mul]
  ring

theorem binTotal_const (H W N : ℕ) (c : ℝ) :
    binTotal H W N (fun _ _ => c) =
      (N : ℝ) * N * (((H / N : ℕ) : ℝ) * ((W / N : ℕ) : ℝ) * c) := by
  simp [binTotal, binSum_const, Finset.sum_const, Finset.card_range, nsmul_eq_mul]
  ring

/-- Closed form of the spatial entropy on a uniform heatmap. -/
theorem calcSpatialEntropy_const (H W N : ℕ) (c : ℝ) :
    calcSpatialEntropy H W N (fun _ _ => c) =
      -((N : ℝ) * N *
        ((((H / N : ℕ) : ℝ) * ((W / N : ℕ) : ℝ) * c) /
            ((N : ℝ) * N * (((H / N : ℕ) : ℝ) * ((W / N : ℕ) : ℝ) * c) + eps) *
          Real.log ((((H / N : ℕ) : ℝ) * ((W / N : ℕ) : ℝ) * c) /
            ((N : ℝ) * N * (((H / N : ℕ) : ℝ) * ((W / N : ℕ) : ℝ) * c) + eps) + eps))) := by
  rw [calcSpatialEntropy, binTotal_const]
  rw [Finset.sum_congr rfl (fun i hi => Finset.sum_congr rfl (fun j hj => by
    rw [binSum_const H W N c i j]))]
  simp [Finset.sum_const, Finset.card_range, nsmul_eq_mul]
  ring

/-- C7 amended: for a uniform heatmap whose common entry is at least 1,
with both sides at least the grid size 10 and at most `10^6` pixels, the
entropy is within `1/100` of `log(H*W)` and the spatial entropy is within
`1/100` of `log 100` (small entries break the estimate because the epsilon
in the normalising denominator dominates). -/
theorem calcEntropy_uniform_close (H W : ℕ) (c : ℝ) (hc : 1 ≤ c)
    (hH : 10 ≤ H) (hW : 10 ≤ W) (hsize : H * W ≤ 1000000) :
    |calcEntropy H W (fun _ _ => c) - Real.log ((H : ℝ) * W)| ≤ 1/100 ∧
    |calcSpatialEntropy H W 10 (fun _ _ => c) - Real.log 100| ≤ 1/100 := by
  have hH1 : (1:ℝ) ≤ (H:ℝ) := by exact_mod_cast le_trans (by norm_num) hH
  have hW1 : (1:ℝ) ≤ (W:ℝ) := by exact_mod_cast le_trans (by norm_num) hW
  constructor
  · rw [calcEntropy_const]
    have h1 : (1:ℝ) ≤ (H:ℝ) * W := by nlinarith
    have h2 : (H:ℝ) * W ≤ 1000000 := by
      have h3 : ((H * W : ℕ) : ℝ) ≤ 1000000 := by exact_mod_cast hsize
      push_cast at h3
      linarith
    exact uniform_entropy_est ((H:ℝ) * W) c h1 h2 hc
  · rw [calcSpatialEntropy_const]
    have hbh : (1:ℕ) ≤ H / 10 := (Nat.one_le_div_iff (by norm_num)).mpr hH
    have hbw : (1:ℕ) ≤ W / 10 := (Nat.one_le_div_iff (by norm_num)).mpr hW
    have hbh' : (1:ℝ) ≤ ((H / 10 : ℕ) : ℝ) := by exact_mod_cast hbh
    have hbw' : (1:ℝ) ≤ ((W / 10 : ℕ) : ℝ) := by exact_mod_cast hbw
    have hab : (1:ℝ) ≤ ((H / 10 : ℕ) : ℝ) * ((W / 10 : ℕ) : ℝ) := by
      nlinarith [mul_nonneg (sub_nonneg.mpr hbh') (sub_nonneg.mpr hbw')]
    have hb : (1:ℝ) ≤ ((H / 10 : ℕ) : ℝ) * ((W / 10 : ℕ) : ℝ) * c := by
      nlinarith [mul_nonneg (sub_nonneg.mpr hab) (sub_nonneg.mpr hc)]
    have hkey := uniform_entropy_est (((10:ℕ):ℝ) * ((10:ℕ):ℝ))
      (((H / 10 : ℕ) : ℝ) * ((W / 10 : ℕ) : ℝ) * c) (by norm_num) (by norm_num) hb
    have hlog : Real.log (((10:ℕ):ℝ) * ((10:ℕ):ℝ)) = Real.log 100 := by norm_num
    rw [hlog] at hkey
    exact hkey

/-- Witness for the amended C7 on the uniform 10×10 heatmap of ones. -/
theorem calcEntropy_uniform_close_witness :
    |calcEntropy 10 10 (fun _ _ => 1) - Real.log (((10:ℕ):ℝ) * ((10:ℕ):ℝ))| ≤ 1/100 ∧
    |calcSpatialEntropy 10 10 10 (fun _ _ => 1) - Real.log 100| ≤ 1/100 :=
  calcEntropy_uniform_close 10 10 1 (by norm_num) (by norm_num) (by norm_num) (by norm_num)
